import Mathlib

/-!
Verification of the plate-text normalizer of the ANPR repository
(`Trial/integrated_anpr/models/anpr_model.py`, class `ANPRModel`).

The normalizer consists of `ANPRModel._post_process_text` (character
cleanup, position-aware confusion-table correction, grammar validation,
fallback acceptance) and the candidate-selection part of
`ANPRModel.recognize_plate` (lines 111-129: build the accepted candidate
list, sort it by confidence descending with Python's stable sort, return
the head, or the empty result).

Embedding conventions:
* A Python string is a list of Unicode code points (`PyStr := List Nat`).
* The Python character predicates `str.isdigit`, `str.isalpha`,
  `str.isalnum` and the case map `str.upper` are embedded exactly on the
  character domain used throughout this development: the ASCII range
  (U+0000-U+007F) together with the Latin-1 letters U+00C0-U+00FE
  excluding multiplication sign U+00D7, division sign U+00F7 and sharp s
  U+00DF (whose upper case is two characters).  On that domain CPython's
  `isalpha`/`isalnum` hold exactly of the ASCII letters, ASCII digits and
  those Latin-1 letters, `isdigit` exactly of the ASCII digits, and
  `upper` adds -0x20 on the lower-case letters.
* OCR confidences are modelled as rationals: the code only copies and
  compares them (no arithmetic is performed on them).
-/

namespace ANPR

/-- A Python string: a list of Unicode code points. -/
abbrev PyStr := List Nat

/-- Code points of a Lean string literal, for concrete test inputs. -/
def pystr (s : String) : PyStr := s.toList.map Char.toNat

/-- Python `c.isdigit()` on the modelled character domain: ASCII `0`-`9`. -/
def pyIsDigit (c : Nat) : Bool := 48 ≤ c && c ≤ 57

/-- ASCII upper-case letter `A`-`Z` (what the regex class `[A-Z]` matches). -/
def isUpperAZ (c : Nat) : Bool := 65 ≤ c && c ≤ 90

/-- ASCII lower-case letter `a`-`z`. -/
def isLowerAZ (c : Nat) : Bool := 97 ≤ c && c ≤ 122

/-- Latin-1 letter in the modelled domain: U+00C0-U+00FE without ×, ÷, ß. -/
def latin1Letter (c : Nat) : Bool :=
  192 ≤ c && c ≤ 254 && c ≠ 215 && c ≠ 223 && c ≠ 247

/-- Python `c.isalpha()` on the modelled character domain. -/
def pyIsAlpha (c : Nat) : Bool := isUpperAZ c || isLowerAZ c || latin1Letter c

/-- Python `c.isalnum()` on the modelled character domain. -/
def pyIsAlnum (c : Nat) : Bool := pyIsAlpha c || pyIsDigit c

/-- ASCII letter or ASCII digit (the character class the spec's Step 1
names: it differs from Python's `isalnum`, which also keeps non-ASCII
alphanumeric characters such as `é`). -/
def isAsciiAlnum (c : Nat) : Bool := isUpperAZ c || isLowerAZ c || pyIsDigit c

/-- Python `c.upper()` on the modelled character domain (a single code
point there; ß, whose upper case is the two-character `SS`, is outside
the domain). -/
def pyUpperChar (c : Nat) : Nat :=
  if isLowerAZ c then c - 32
  else if 224 ≤ c && c ≤ 254 && c ≠ 247 then c - 32
  else c

/-- The `digit_to_letter` table of `_post_process_text`
(`{'0':'O','1':'I','2':'Z','4':'A','5':'S','6':'G','7':'T','8':'B'}`)
with Python's `.get(char, char)` default built in. -/
def digit_to_letter (c : Nat) : Nat :=
  if c = 48 then 79        -- '0' ↦ 'O'
  else if c = 49 then 73   -- '1' ↦ 'I'
  else if c = 50 then 90   -- '2' ↦ 'Z'
  else if c = 52 then 65   -- '4' ↦ 'A'
  else if c = 53 then 83   -- '5' ↦ 'S'
  else if c = 54 then 71   -- '6' ↦ 'G'
  else if c = 55 then 84   -- '7' ↦ 'T'
  else if c = 56 then 66   -- '8' ↦ 'B'
  else c

/-- The `self.corrections` dict of `ANPRModel.__init__`
(`{'O':'0','I':'1','Z':'2','S':'5','B':'8','D':'0','Q':'0','T':'7'}`);
`none` models `char not in self.corrections`. -/
def corrections (c : Nat) : Option Nat :=
  if c = 79 then some 48        -- 'O' ↦ '0'
  else if c = 73 then some 49   -- 'I' ↦ '1'
  else if c = 90 then some 50   -- 'Z' ↦ '2'
  else if c = 83 then some 53   -- 'S' ↦ '5'
  else if c = 66 then some 56   -- 'B' ↦ '8'
  else if c = 68 then some 48   -- 'D' ↦ '0'
  else if c = 81 then some 48   -- 'Q' ↦ '0'
  else if c = 84 then some 55   -- 'T' ↦ '7'
  else none

/-- One iteration of the position-aware correction loop of
`_post_process_text` (lines 154-193): `n` is `len(text)` of the cleaned
string, `i` the position, `c` the character at that position. -/
def correctChar (n i c : Nat) : Nat :=
  if i < 2 then
    -- state-code zone: digit → letter
    if pyIsDigit c then digit_to_letter c else c
  else if i < 4 then
    -- region-code zone: letter → digit via `corrections`
    if pyIsAlpha c && (corrections c).isSome then (corrections c).getD c else c
  else if i < 6 then
    -- series-code zone: digit → letter, only when len(text) > 8
    if pyIsDigit c && decide (8 < n) then digit_to_letter c else c
  else
    -- unique-identifier zone: letter → digit via `corrections`
    if pyIsAlpha c && (corrections c).isSome then (corrections c).getD c else c

/-- The correction loop, accumulating positions from `i`. -/
def applyCorrectionsAux (n : Nat) : Nat → PyStr → PyStr
  | _, [] => []
  | i, c :: cs => correctChar n i c :: applyCorrectionsAux n (i + 1) cs

/-- The whole correction pass over the cleaned string (`for i, char in
enumerate(text)` with `n = len(text)`). -/
def applyCorrections (t : PyStr) : PyStr := applyCorrectionsAux t.length 0 t

/-- Lines 144-148 of `_post_process_text`:
`text = ''.join(c for c in text if c.isalnum())` then `text.upper()`. -/
def cleanedOf (t : PyStr) : PyStr := (t.filter fun c => pyIsAlnum c).map pyUpperChar

/-- Full-string match of `self.plate_pattern =
r'^[A-Z]\x7b2\x7d\d\x7b1,2\x7d[A-Z]\x7b1,2\x7d\d\x7b1,4\x7d[A-Z]?$'`:
`re.match` succeeds iff the string splits as 2 letters, 1-2 digits,
1-2 letters, 1-4 digits and an optional trailing letter (all repetition
counts are bounded, so matching is a finite disjunction over them). -/
def plateMatch (s : PyStr) : Bool :=
  [1, 2].any fun n1 => [1, 2].any fun n2 => [1, 2, 3, 4].any fun n3 => [0, 1].any fun n4 =>
    decide (s.length = 2 + n1 + n2 + n3 + n4) &&
    (s.take 2).all isUpperAZ &&
    ((s.drop 2).take n1).all pyIsDigit &&
    (((s.drop 2).drop n1).take n2).all isUpperAZ &&
    ((((s.drop 2).drop n1).drop n2).take n3).all pyIsDigit &&
    ((((s.drop 2).drop n1).drop n2).drop n3).all isUpperAZ

/-- Lines 199-204 of `_post_process_text`: the fallback acceptance test
`len(processed_text) >= 6 and any(c.isdigit() ...) and any(c.isalpha() ...)`. -/
def fallbackOk (s : PyStr) : Bool :=
  decide (6 ≤ s.length) && s.any (fun c => pyIsDigit c) && s.any (fun c => pyIsAlpha c)

/-- `ANPRModel._post_process_text` (lines 131-206), statement by
statement: empty-string early return, alnum filter + upper-case,
length-<4 rejection, position-aware correction, regex validation,
fallback acceptance, final rejection. -/
def post_process_text (t : PyStr) : PyStr :=
  if t = [] then []
  else
    let text := cleanedOf t
    if text.length < 4 then []
    else
      let processed := applyCorrections text
      if plateMatch processed then processed
      else if fallbackOk processed then processed
      else []

/-- Insertion step of a stable descending sort on confidence: the new
element goes before the first strictly smaller key, i.e. after every
earlier element with an equal or larger key. -/
def insertDesc (x : PyStr × ℚ) : List (PyStr × ℚ) → List (PyStr × ℚ)
  | [] => [x]
  | y :: ys => if y.2 ≤ x.2 then x :: y :: ys else y :: insertDesc x ys

/-- Python's `candidates.sort(key=lambda x: x[1], reverse=True)`: a
stable sort, descending on confidence (equal-confidence candidates keep
their original order). -/
def sortDesc (l : List (PyStr × ℚ)) : List (PyStr × ℚ) := l.foldr insertDesc []

/-- Lines 115-119 of `recognize_plate`: the accepted-candidate list —
post-process each raw text and keep the non-empty results with their
confidences. -/
def accepted (cands : List (PyStr × ℚ)) : List (PyStr × ℚ) :=
  cands.filterMap fun p =>
    let q := post_process_text p.1
    if q = [] then none else some (q, p.2)

/-- The spec's `normalize`: lines 111-129 of `ANPRModel.recognize_plate`
on an already-built candidate list — empty-input early return, accepted
list, stable descending sort by confidence, head or empty result. -/
def normalize (cands : List (PyStr × ℚ)) : PyStr × ℚ :=
  if cands = [] then ([], 0)
  else
    match sortDesc (accepted cands) with
    | [] => ([], 0)
    | best :: _ => best

/-- The plate grammar exactly as the spec words it: 2 letters, 1-2
digits, 1-2 letters, 1-4 digits, optional trailing letter. -/
def PlateGrammar (s : PyStr) : Prop :=
  ∃ a b c d e : PyStr,
    s = a ++ b ++ c ++ d ++ e ∧
    a.length = 2 ∧
    (1 ≤ b.length ∧ b.length ≤ 2) ∧
    (1 ≤ c.length ∧ c.length ≤ 2) ∧
    (1 ≤ d.length ∧ d.length ≤ 4) ∧
    e.length ≤ 1 ∧
    (∀ x ∈ a, isUpperAZ x = true) ∧
    (∀ x ∈ b, pyIsDigit x = true) ∧
    (∀ x ∈ c, isUpperAZ x = true) ∧
    (∀ x ∈ d, pyIsDigit x = true) ∧
    (∀ x ∈ e, isUpperAZ x = true)

/-- A character is clean when it is alphanumeric and fixed by upper-casing
(the characters the cleanup step can ever output). -/
def CleanChar (c : Nat) : Prop := pyIsAlnum c = true ∧ pyUpperChar c = c

instance (c : Nat) : Decidable (CleanChar c) := by unfold CleanChar; infer_instance

lemma applyCorrectionsAux_length (n : Nat) :
    ∀ (i : Nat) (t : PyStr), (applyCorrectionsAux n i t).length = t.length := by
  intro i t
  induction t generalizing i with
  | nil => rfl
  | cons c cs ih => simp [applyCorrectionsAux, ih]

lemma applyCorrections_length (t : PyStr) :
    (applyCorrections t).length = t.length :=
  applyCorrectionsAux_length t.length 0 t

lemma applyCorrectionsAux_getD (n : Nat) :
    ∀ (i : Nat) (t : PyStr) (j : Nat), j < t.length →
      (applyCorrectionsAux n i t).getD j 0 = correctChar n (i + j) (t.getD j 0) := by
  intro i t
  induction t generalizing i with
  | nil => intro j hj; simp at hj
  | cons c cs ih =>
    intro j hj
    cases j with
    | zero => simp [applyCorrectionsAux]
    | succ k =>
      simp only [applyCorrectionsAux, List.getD_cons_succ]
      rw [ih (i + 1) k (by simpa using hj)]
      ring_nf

lemma applyCorrections_getD (t : PyStr) (j : Nat) (hj : j < t.length) :
    (applyCorrections t).getD j 0 = correctChar t.length j (t.getD j 0) := by
  simpa using applyCorrectionsAux_getD t.length 0 t j hj

lemma pyIsDigit_iff (c : Nat) : pyIsDigit c = true ↔ 48 ≤ c ∧ c ≤ 57 := by
  simp [pyIsDigit]

lemma isUpperAZ_iff (c : Nat) : isUpperAZ c = true ↔ 65 ≤ c ∧ c ≤ 90 := by
  simp [isUpperAZ]

lemma isLowerAZ_iff (c : Nat) : isLowerAZ c = true ↔ 97 ≤ c ∧ c ≤ 122 := by
  simp [isLowerAZ]

lemma latin1Letter_iff (c : Nat) :
    latin1Letter c = true ↔ 192 ≤ c ∧ c ≤ 254 ∧ c ≠ 215 ∧ c ≠ 223 ∧ c ≠ 247 := by
  simp [latin1Letter]; tauto

lemma pyIsAlpha_iff (c : Nat) :
    pyIsAlpha c = true ↔
      (65 ≤ c ∧ c ≤ 90) ∨ (97 ≤ c ∧ c ≤ 122) ∨
      (192 ≤ c ∧ c ≤ 254 ∧ c ≠ 215 ∧ c ≠ 223 ∧ c ≠ 247) := by
  simp only [pyIsAlpha, Bool.or_eq_true, isUpperAZ_iff, isLowerAZ_iff, latin1Letter_iff]
  tauto

lemma pyIsAlnum_iff (c : Nat) :
    pyIsAlnum c = true ↔
      (65 ≤ c ∧ c ≤ 90) ∨ (97 ≤ c ∧ c ≤ 122) ∨
      (192 ≤ c ∧ c ≤ 254 ∧ c ≠ 215 ∧ c ≠ 223 ∧ c ≠ 247) ∨ (48 ≤ c ∧ c ≤ 57) := by
  simp only [pyIsAlnum, Bool.or_eq_true, pyIsAlpha_iff, pyIsDigit_iff]; tauto

lemma pyUpperChar_eq (c : Nat) :
    pyUpperChar c =
      if 97 ≤ c ∧ c ≤ 122 then c - 32
      else if 224 ≤ c ∧ c ≤ 254 ∧ c ≠ 247 then c - 32
      else c := by
  simp only [pyUpperChar, isLowerAZ, Bool.and_eq_true, decide_eq_true_eq]
  split_ifs <;> first | rfl | omega

lemma cleanChar_upper (c : Nat) (h : pyIsAlnum c = true) : CleanChar (pyUpperChar c) := by
  rw [pyIsAlnum_iff] at h
  constructor
  · rw [pyIsAlnum_iff, pyUpperChar_eq]
    split_ifs <;> omega
  · rw [pyUpperChar_eq, pyUpperChar_eq]
    split_ifs <;> omega
lemma cleanChar_digit_to_letter (c : Nat) (h : CleanChar c) :
    CleanChar (digit_to_letter c) := by
  unfold digit_to_letter
  split_ifs <;> first | assumption | decide

lemma corrections_isSome_cases (c : Nat) (h : (corrections c).isSome = true) :
    c = 79 ∨ c = 73 ∨ c = 90 ∨ c = 83 ∨ c = 66 ∨ c = 68 ∨ c = 81 ∨ c = 84 := by
  unfold corrections at h
  split_ifs at h <;> tauto

lemma cleanChar_corrections_getD (c : Nat) (h : (corrections c).isSome = true) :
    CleanChar ((corrections c).getD c) := by
  rcases corrections_isSome_cases c h with rfl | rfl | rfl | rfl | rfl | rfl | rfl | rfl <;>
    decide

lemma corrections_getD_not_alpha (c : Nat) (h : (corrections c).isSome = true) :
    pyIsAlpha ((corrections c).getD c) = false := by
  rcases corrections_isSome_cases c h with rfl | rfl | rfl | rfl | rfl | rfl | rfl | rfl <;>
    decide

lemma digit_to_letter_not_digit_or_fixed (c : Nat) (h : pyIsDigit c = true) :
    pyIsDigit (digit_to_letter c) = false ∨ digit_to_letter c = c := by
  rw [pyIsDigit_iff] at h
  obtain ⟨h1, h2⟩ := h
  interval_cases c <;> decide

lemma cleanChar_correctChar (n i c : Nat) (h : CleanChar c) :
    CleanChar (correctChar n i c) := by
  unfold correctChar
  by_cases h1 : i < 2
  · rw [if_pos h1]
    by_cases hd : pyIsDigit c = true
    · rw [if_pos hd]; exact cleanChar_digit_to_letter c h
    · rw [if_neg hd]; exact h
  · rw [if_neg h1]
    by_cases h2 : i < 4
    · rw [if_pos h2]
      by_cases hc : (pyIsAlpha c && (corrections c).isSome) = true
      · rw [if_pos hc]
        exact cleanChar_corrections_getD c (by simp only [Bool.and_eq_true] at hc; exact hc.2)
      · rw [if_neg hc]; exact h
    · rw [if_neg h2]
      by_cases h3 : i < 6
      · rw [if_pos h3]
        by_cases hd : (pyIsDigit c && decide (8 < n)) = true
        · rw [if_pos hd]; exact cleanChar_digit_to_letter c h
        · rw [if_neg hd]; exact h
      · rw [if_neg h3]
        by_cases hc : (pyIsAlpha c && (corrections c).isSome) = true
        · rw [if_pos hc]
          exact cleanChar_corrections_getD c (by simp only [Bool.and_eq_true] at hc; exact hc.2)
        · rw [if_neg hc]; exact h

lemma correctChar_idem (n i c : Nat) :
    correctChar n i (correctChar n i c) = correctChar n i c := by
  by_cases h1 : i < 2
  · by_cases hd : pyIsDigit c = true
    · rcases digit_to_letter_not_digit_or_fixed c hd with h | h
      · simp [correctChar, h1, hd, h]
      · simp [correctChar, h1, hd, h]
    · simp [correctChar, h1, hd]
  · by_cases h2 : i < 4
    · by_cases hc : (pyIsAlpha c && (corrections c).isSome) = true
      · obtain ⟨ha, hs⟩ := by simpa only [Bool.and_eq_true] using hc
        simp [correctChar, h1, h2, ha, hs, corrections_getD_not_alpha c hs]
      · simp only [Bool.and_eq_true, not_and_or, Bool.not_eq_true] at hc
        rcases hc with hc | hc <;> simp [correctChar, h1, h2, hc]
    · by_cases h3 : i < 6
      · by_cases hb : (pyIsDigit c && decide (8 < n)) = true
        · obtain ⟨hd, hn⟩ := by simpa only [Bool.and_eq_true] using hb
          rcases digit_to_letter_not_digit_or_fixed c hd with h | h
          · simp [correctChar, h1, h2, h3, hd, hn, h]
          · simp [correctChar, h1, h2, h3, hd, hn, h]
        · simp only [Bool.and_eq_true, not_and_or, Bool.not_eq_true] at hb
          rcases hb with hb | hb <;> simp [correctChar, h1, h2, h3, hb]
      · by_cases hc : (pyIsAlpha c && (corrections c).isSome) = true
        · obtain ⟨ha, hs⟩ := by simpa only [Bool.and_eq_true] using hc
          simp [correctChar, h1, h2, h3, ha, hs, corrections_getD_not_alpha c hs]
        · simp only [Bool.and_eq_true, not_and_or, Bool.not_eq_true] at hc
          rcases hc with hc | hc <;> simp [correctChar, h1, h2, h3, hc]

lemma cleanedOf_chars (t : PyStr) : ∀ c ∈ cleanedOf t, CleanChar c := by
  intro c hc
  unfold cleanedOf at hc
  obtain ⟨d, hd, rfl⟩ := List.mem_map.mp hc
  exact cleanChar_upper d (List.of_mem_filter hd)

lemma applyCorrectionsAux_chars (n : Nat) :
    ∀ (i : Nat) (t : PyStr), (∀ c ∈ t, CleanChar c) →
      ∀ c ∈ applyCorrectionsAux n i t, CleanChar c := by
  intro i t
  induction t generalizing i with
  | nil => intro _ c hc; simp [applyCorrectionsAux] at hc
  | cons d ds ih =>
    intro h c hc
    simp only [applyCorrectionsAux, List.mem_cons] at hc
    rcases hc with rfl | hc
    · exact cleanChar_correctChar n i d (h d (List.mem_cons_self d ds))
    · exact ih (i + 1) (fun x hx => h x (List.mem_cons_of_mem d hx)) c hc

lemma applyCorrections_chars (t : PyStr) (h : ∀ c ∈ t, CleanChar c) :
    ∀ c ∈ applyCorrections t, CleanChar c :=
  applyCorrectionsAux_chars t.length 0 t h

lemma cleanedOf_eq_self (s : PyStr) (h : ∀ c ∈ s, CleanChar c) : cleanedOf s = s := by
  induction s with
  | nil => rfl
  | cons c cs ih =>
    have hc := h c (List.mem_cons_self c cs)
    have hcs := fun x hx => h x (List.mem_cons_of_mem c hx)
    simp only [cleanedOf, List.filter_cons, hc.1, if_pos, List.map_cons, hc.2]
    exact congrArg (c :: ·) (ih hcs)

lemma applyCorrectionsAux_idem (n : Nat) :
    ∀ (i : Nat) (t : PyStr),
      applyCorrectionsAux n i (applyCorrectionsAux n i t) = applyCorrectionsAux n i t := by
  intro i t
  induction t generalizing i with
  | nil => rfl
  | cons c cs ih =>
    simp only [applyCorrectionsAux, correctChar_idem, List.cons.injEq, true_and]
    exact ih (i + 1)

lemma applyCorrections_idem (t : PyStr) :
    applyCorrections (applyCorrections t) = applyCorrections t := by
  unfold applyCorrections
  rw [applyCorrectionsAux_length]
  exact applyCorrectionsAux_idem t.length 0 t

/-- The branch structure of `post_process_text`, written out once. -/
lemma post_process_text_eq (t : PyStr) :
    post_process_text t =
      if t = [] then []
      else if (cleanedOf t).length < 4 then []
      else if plateMatch (applyCorrections (cleanedOf t)) then applyCorrections (cleanedOf t)
      else if fallbackOk (applyCorrections (cleanedOf t)) then applyCorrections (cleanedOf t)
      else [] := rfl

/-- Every non-empty output of `post_process_text` is the corrected
cleanup of its input, of length at least 4, and passes the grammar test
or the fallback test. -/
lemma post_process_text_cases (t : PyStr) (h : post_process_text t ≠ []) :
    post_process_text t = applyCorrections (cleanedOf t) ∧
    4 ≤ (cleanedOf t).length ∧
    (plateMatch (applyCorrections (cleanedOf t)) = true ∨
      fallbackOk (applyCorrections (cleanedOf t)) = true) := by
  rw [post_process_text_eq] at h ⊢
  by_cases h0 : t = []
  · simp [h0] at h
  · rw [if_neg h0] at h ⊢
    by_cases h4 : (cleanedOf t).length < 4
    · rw [if_pos h4] at h; exact absurd rfl h
    · rw [if_neg h4] at h ⊢
      by_cases hm : plateMatch (applyCorrections (cleanedOf t)) = true
      · rw [if_pos hm]; exact ⟨rfl, by omega, Or.inl hm⟩
      · rw [if_neg hm] at h ⊢
        by_cases hf : fallbackOk (applyCorrections (cleanedOf t)) = true
        · rw [if_pos hf]; exact ⟨rfl, by omega, Or.inr hf⟩
        · rw [if_neg hf] at h; exact absurd rfl h

/-- The non-empty outputs of `post_process_text` are fixed points of
`post_process_text`. -/
lemma post_process_text_fixed (t : PyStr) (h : post_process_text t ≠ []) :
    post_process_text (post_process_text t) = post_process_text t := by
  obtain ⟨heq, h4, hv⟩ := post_process_text_cases t h
  set r := post_process_text t with hr
  have hchars : ∀ c ∈ r, CleanChar c := by
    rw [heq]; exact applyCorrections_chars (cleanedOf t) (cleanedOf_chars t)
  have hclean : cleanedOf r = r := cleanedOf_eq_self r hchars
  have hlen : 4 ≤ r.length := by
    rw [heq, applyCorrections_length]; exact h4
  have hcorr : applyCorrections r = r := by
    rw [heq, applyCorrections_idem]
  rw [post_process_text_eq, if_neg h, hclean, if_neg (by omega), hcorr]
  rcases hv with hm | hf
  · rw [if_pos (heq ▸ hm)]
  · by_cases hm2 : plateMatch r = true
    · rw [if_pos hm2]
    · rw [if_neg hm2, if_pos (heq ▸ hf)]

lemma insertDesc_ne_nil (x : PyStr × ℚ) (l : List (PyStr × ℚ)) : insertDesc x l ≠ [] := by
  cases l with
  | nil => simp [insertDesc]
  | cons y ys => unfold insertDesc; split_ifs <;> simp

lemma sortDesc_ne_nil (l : List (PyStr × ℚ)) (h : l ≠ []) : sortDesc l ≠ [] := by
  cases l with
  | nil => exact absurd rfl h
  | cons x xs => exact insertDesc_ne_nil x (sortDesc xs)

lemma mem_insertDesc (x y : PyStr × ℚ) (l : List (PyStr × ℚ)) :
    y ∈ insertDesc x l ↔ y = x ∨ y ∈ l := by
  induction l with
  | nil => simp [insertDesc]
  | cons z zs ih =>
    unfold insertDesc
    split_ifs
    · simp
    · simp [ih]
      tauto

lemma mem_sortDesc (y : PyStr × ℚ) (l : List (PyStr × ℚ)) (h : y ∈ sortDesc l) : y ∈ l := by
  induction l with
  | nil => simp [sortDesc] at h
  | cons x xs ih =>
    rcases (mem_insertDesc x y (sortDesc xs)).mp h with rfl | h2
    · exact List.mem_cons_self ..
    · exact List.mem_cons_of_mem x (ih h2)

/-- The head of the stable descending sort is the first-seen element of
maximal confidence: everything before it in the original list is
strictly smaller, everything after it is no larger. -/
lemma sortDesc_head_spec (l : List (PyStr × ℚ)) :
    ∀ (b : PyStr × ℚ) (rest : List (PyStr × ℚ)), sortDesc l = b :: rest →
      ∃ pre post, l = pre ++ b :: post ∧
        (∀ y ∈ pre, y.2 < b.2) ∧ (∀ y ∈ post, y.2 ≤ b.2) := by
  induction l with
  | nil => intro b rest h; simp [sortDesc] at h
  | cons x xs ih =>
    intro b rest h
    have hx : sortDesc (x :: xs) = insertDesc x (sortDesc xs) := rfl
    rw [hx] at h
    cases hs : sortDesc xs with
    | nil =>
      rw [hs] at h
      simp only [insertDesc, List.cons.injEq] at h
      obtain ⟨rfl, rfl⟩ := h
      have hxs : xs = [] := by
        by_contra hne
        exact sortDesc_ne_nil xs hne hs
      subst hxs
      exact ⟨[], [], rfl, by simp, by simp⟩
    | cons b' rest' =>
      rw [hs] at h
      unfold insertDesc at h
      by_cases hle : b'.2 ≤ x.2
      · rw [if_pos hle] at h
        simp only [List.cons.injEq] at h
        obtain ⟨rfl, rfl⟩ := h
        obtain ⟨pre', post', hxs, hpre', hpost'⟩ := ih b' rest' hs
        refine ⟨[], xs, rfl, by simp, ?_⟩
        intro y hy
        rw [hxs] at hy
        rcases List.mem_append.mp hy with hy | hy
        · exact le_trans (le_of_lt (hpre' y hy)) hle
        · rcases List.mem_cons.mp hy with rfl | hy
          · exact hle
          · exact le_trans (hpost' y hy) hle
      · rw [if_neg hle] at h
        simp only [List.cons.injEq] at h
        obtain ⟨rfl, hrest⟩ := h
        obtain ⟨pre', post', hxs, hpre', hpost'⟩ := ih b' rest' hs
        refine ⟨x :: pre', post', by rw [hxs]; simp, ?_, hpost'⟩
        intro y hy
        rcases List.mem_cons.mp hy with rfl | hy
        · exact not_le.mp hle
        · exact hpre' y hy

/-- The regex matcher agrees with the spec's wording of the plate
grammar: full-string decomposition into 2 letters, 1-2 digits, 1-2
letters, 1-4 digits and an optional trailing letter. -/
lemma plateMatch_iff (s : PyStr) : plateMatch s = true ↔ PlateGrammar s := by
  constructor
  · intro h
    unfold plateMatch at h
    simp only [List.any_eq_true, List.mem_cons, List.not_mem_nil, or_false,
      Bool.and_eq_true, decide_eq_true_eq, List.all_eq_true] at h
    obtain ⟨n1, hn1, n2, hn2, n3, hn3, n4, hn4, ⟨⟨⟨⟨⟨hlen, ha⟩, hb⟩, hc⟩, hd⟩, he⟩⟩ := h
    have bn1 : 1 ≤ n1 ∧ n1 ≤ 2 := by rcases hn1 with rfl | rfl <;> omega
    have bn2 : 1 ≤ n2 ∧ n2 ≤ 2 := by rcases hn2 with rfl | rfl <;> omega
    have bn3 : 1 ≤ n3 ∧ n3 ≤ 4 := by rcases hn3 with rfl | rfl | rfl | rfl <;> omega
    have bn4 : n4 ≤ 1 := by rcases hn4 with rfl | rfl <;> omega
    refine ⟨s.take 2, (s.drop 2).take n1, ((s.drop 2).drop n1).take n2,
      (((s.drop 2).drop n1).drop n2).take n3, (((s.drop 2).drop n1).drop n2).drop n3,
      ?_, ?_, ?_, ?_, ?_, ?_, ha, hb, hc, hd, he⟩
    · simp only [List.append_assoc]
      conv_lhs => rw [← List.take_append_drop 2 s]
      congr 1
      conv_lhs => rw [← List.take_append_drop n1 (s.drop 2)]
      congr 1
      conv_lhs => rw [← List.take_append_drop n2 ((s.drop 2).drop n1)]
      congr 1
      conv_lhs => rw [← List.take_append_drop n3 (((s.drop 2).drop n1).drop n2)]
    · simp only [List.length_take]
      omega
    · simp only [List.length_take, List.length_drop]
      omega
    · simp only [List.length_take, List.length_drop]
      omega
    · simp only [List.length_take, List.length_drop]
      omega
    · simp only [List.length_drop]
      omega
  · intro h
    obtain ⟨a, b, c, d, e, rfl, hla, hlb, hlc, hld, hle2, ha, hb, hc, hd, he⟩ := h
    unfold plateMatch
    simp only [List.any_eq_true, List.mem_cons, List.not_mem_nil, or_false,
      Bool.and_eq_true, decide_eq_true_eq, List.all_eq_true]
    refine ⟨b.length, by omega, c.length, by omega, d.length, by omega, e.length,
      by omega, ⟨⟨⟨⟨⟨?_, ?_⟩, ?_⟩, ?_⟩, ?_⟩, ?_⟩⟩
    · simp only [List.length_append]
      omega
    · rw [List.append_assoc, List.append_assoc, List.append_assoc] at *
      rw [List.take_left' hla]
      exact ha
    · rw [List.append_assoc, List.append_assoc, List.append_assoc,
        List.drop_left' hla, List.take_left' rfl]
      exact hb
    · rw [List.append_assoc, List.append_assoc, List.append_assoc,
        List.drop_left' hla, List.drop_left' rfl, List.take_left' rfl]
      exact hc
    · rw [List.append_assoc, List.append_assoc, List.append_assoc,
        List.drop_left' hla, List.drop_left' rfl, List.drop_left' rfl,
        List.take_left' rfl]
      exact hd
    · rw [List.append_assoc, List.append_assoc, List.append_assoc,
        List.drop_left' hla, List.drop_left' rfl, List.drop_left' rfl,
        List.drop_left' rfl]
      exact he

lemma alpha_not_digit (c : Nat) (h : pyIsAlpha c = true) : pyIsDigit c = false := by
  rw [pyIsAlpha_iff] at h
  rw [← Bool.not_eq_true, pyIsDigit_iff]
  omega

lemma digit_not_alpha (c : Nat) (h : pyIsDigit c = true) : pyIsAlpha c = false := by
  rw [pyIsDigit_iff] at h
  rw [← Bool.not_eq_true, pyIsAlpha_iff]
  omega

/-- C1: `normalize` is a total function of the candidate list — it is
defined (by structural recursion, hence terminating) on every input, and
always returns either the empty result or the post-processed text and
untouched confidence of one of the input candidates. -/
theorem c1_normalize_total (cands : List (PyStr × ℚ)) :
    normalize cands = ([], 0) ∨
    ∃ p ∈ cands, post_process_text p.1 ≠ [] ∧
      normalize cands = (post_process_text p.1, p.2) := by
  unfold normalize
  by_cases h0 : cands = []
  · simp [h0]
  · rw [if_neg h0]
    cases hs : sortDesc (accepted cands) with
    | nil => exact Or.inl rfl
    | cons best rest =>
      right
      have hmem : best ∈ accepted cands :=
        mem_sortDesc best (accepted cands) (hs ▸ List.mem_cons_self best rest)
      unfold accepted at hmem
      rw [List.mem_filterMap] at hmem
      obtain ⟨p, hp, hval⟩ := hmem
      by_cases hq : post_process_text p.1 = []
      · rw [if_pos hq] at hval
        exact absurd hval (by simp)
      · rw [if_neg hq] at hval
        refine ⟨p, hp, hq, ?_⟩
        injection hval with hval
        exact hval.symm

/-- C2: the empty candidate list, and any candidate list whose
candidates are all rejected by post-processing, produce exactly the
empty-text / zero-confidence result; no fault is involved. -/
theorem c2_empty_result (cands : List (PyStr × ℚ)) :
    normalize [] = ([], 0) ∧
    ((∀ p ∈ cands, post_process_text p.1 = []) → normalize cands = ([], 0)) := by
  refine ⟨by simp [normalize], ?_⟩
  intro h
  have hacc : accepted cands = [] := by
    unfold accepted
    rw [List.filterMap_eq_nil_iff]
    intro p hp
    simp [h p hp]
  unfold normalize
  by_cases h0 : cands = []
  · simp [h0]
  · rw [if_neg h0, hacc]
    rfl

/-- C2 witness: a concrete all-rejected candidate list (text too short)
yields the empty result. -/
theorem c2_empty_result_witness :
    normalize [(pystr "AB", (1 : ℚ)/2)] = ([], 0) :=
  (c2_empty_result [(pystr "AB", (1 : ℚ)/2)]).2 (by decide)

/-- C3 counterexample: the cleanup step does NOT strip every character
that is not an ASCII letter or digit — on the input `"éé02BH1234"` the
accented letters (Python `str.isalnum` is Unicode-aware) survive cleanup
and even reach the final output, which contains characters outside the
ASCII-alphanumeric class. -/
theorem c3_cleanup_counterexample :
    post_process_text (pystr "éé02BH1234") = pystr "ÉÉ02BH1234" ∧
    (pystr "ÉÉ02BH1234").any (fun c => !isAsciiAlnum c) = true := by
  constructor <;> decide

/-- C3 (amended): for every candidate's raw text, the normalizer strips
every character that is not alphanumeric in Python's Unicode sense
(non-ASCII alphanumeric characters such as `é` are kept), upper-cases
the remainder, and rejects any cleaned string shorter than 4
characters. -/
theorem c3_cleanup_amended (t : PyStr) :
    cleanedOf t = (t.filter fun c => pyIsAlnum c).map pyUpperChar ∧
    (∀ c ∈ cleanedOf t, pyIsAlnum c = true) ∧
    ((cleanedOf t).length < 4 → post_process_text t = []) := by
  refine ⟨rfl, fun c hc => (cleanedOf_chars t c hc).1, ?_⟩
  intro h4
  rw [post_process_text_eq]
  by_cases h0 : t = []
  · simp [h0]
  · rw [if_neg h0, if_pos h4]

/-- C3 witness: a concrete cleaned string of length 3 is rejected. -/
theorem c3_cleanup_amended_witness :
    post_process_text (pystr "ab1") = [] :=
  (c3_cleanup_amended (pystr "ab1")).2.2 (by decide)

/-- C4: zone restriction of the confusion tables.  In the letter zones
(positions 0-1 and 4-5) a character is only ever left alone or replaced
through the digit→letter table (letters pass through untouched); in the
digit zones (positions 2-3 and 6 onward) a character is only ever left
alone or replaced through the letter→digit `corrections` table (digits
pass through untouched).  No table is applied outside its zone. -/
theorem c4_zone_restriction (t : PyStr) (i : Nat) (h : i < t.length) :
    ((i < 2 ∨ (4 ≤ i ∧ i < 6)) →
      (pyIsAlpha (t.getD i 0) = true → (applyCorrections t).getD i 0 = t.getD i 0) ∧
      ((applyCorrections t).getD i 0 = t.getD i 0 ∨
        (pyIsDigit (t.getD i 0) = true ∧
          (applyCorrections t).getD i 0 = digit_to_letter (t.getD i 0)))) ∧
    (((2 ≤ i ∧ i < 4) ∨ 6 ≤ i) →
      (pyIsDigit (t.getD i 0) = true → (applyCorrections t).getD i 0 = t.getD i 0) ∧
      ((applyCorrections t).getD i 0 = t.getD i 0 ∨
        (pyIsAlpha (t.getD i 0) = true ∧
          corrections (t.getD i 0) = some ((applyCorrections t).getD i 0)))) := by
  rw [applyCorrections_getD t i h]
  constructor
  · rintro (h2 | ⟨h4, h6⟩)
    · unfold correctChar
      rw [if_pos h2]
      constructor
      · intro ha
        have hnd := alpha_not_digit _ ha
        rw [if_neg (by rw [hnd]; simp)]
      · by_cases hd : pyIsDigit (t.getD i 0) = true
        · rw [if_pos hd]; exact Or.inr ⟨hd, rfl⟩
        · rw [if_neg hd]; exact Or.inl rfl
    · unfold correctChar
      rw [if_neg (by omega), if_neg (by omega), if_pos h6]
      constructor
      · intro ha
        have hnd := alpha_not_digit _ ha
        rw [if_neg (by rw [hnd]; simp)]
      · by_cases hd : (pyIsDigit (t.getD i 0) && decide (8 < t.length)) = true
        · rw [if_pos hd]
          have hd2 : pyIsDigit (t.getD i 0) = true := by
            simp only [Bool.and_eq_true] at hd
            exact hd.1
          exact Or.inr ⟨hd2, rfl⟩
        · rw [if_neg hd]; exact Or.inl rfl
  · intro hz
    have hbranch :
        correctChar t.length i (t.getD i 0) =
          if pyIsAlpha (t.getD i 0) && (corrections (t.getD i 0)).isSome then
            (corrections (t.getD i 0)).getD (t.getD i 0)
          else t.getD i 0 := by
      unfold correctChar
      rcases hz with ⟨h2, h4⟩ | h6
      · rw [if_neg (by omega), if_pos (by omega)]
      · rw [if_neg (by omega), if_neg (by omega), if_neg (by omega)]
    rw [hbranch]
    constructor
    · intro hd
      have hna := digit_not_alpha _ hd
      rw [if_neg (by rw [hna]; simp)]
    · by_cases hc : (pyIsAlpha (t.getD i 0) && (corrections (t.getD i 0)).isSome) = true
      · rw [if_pos hc]
        obtain ⟨ha, hs⟩ := by simpa only [Bool.and_eq_true] using hc
        obtain ⟨d, hd⟩ := Option.isSome_iff_exists.mp hs
        rw [hd]
        exact Or.inr ⟨ha, by simp⟩
      · rw [if_neg hc]; exact Or.inl rfl

/-- C4 witness: at position 4 (letter zone) of a 10-character string the
letter `B` passes through untouched. -/
theorem c4_zone_restriction_witness :
    (applyCorrections (pystr "MHO2BH1234")).getD 4 0 = (pystr "MHO2BH1234").getD 4 0 :=
  ((c4_zone_restriction (pystr "MHO2BH1234") 4 (by decide)).1 (by decide)).1 (by decide)

/-- C5: on every candidate that survives cleanup (length at least 4),
the corrected string is tested against the plate grammar as an anchored
full-string regular expression — the matcher holds exactly of the
spec's decomposition (2 letters, 1-2 digits, 1-2 letters, 1-4 digits,
optional trailing letter) — and a corrected string that matches is
returned as-is, unchanged. -/
theorem c5_grammar_acceptance (t : PyStr) (h4 : 4 ≤ (cleanedOf t).length) :
    (plateMatch (applyCorrections (cleanedOf t)) = true ↔
      PlateGrammar (applyCorrections (cleanedOf t))) ∧
    (plateMatch (applyCorrections (cleanedOf t)) = true →
      post_process_text t = applyCorrections (cleanedOf t)) := by
  refine ⟨plateMatch_iff _, fun hm => ?_⟩
  have h0 : t ≠ [] := by
    intro h0
    rw [h0] at h4
    simp [cleanedOf] at h4
  rw [post_process_text_eq, if_neg h0, if_neg (by omega), if_pos hm]

/-- C5 witness: a concrete grammar-valid candidate is accepted
unchanged. -/
theorem c5_grammar_acceptance_witness :
    post_process_text (pystr "mh02bh1234") =
      applyCorrections (cleanedOf (pystr "mh02bh1234")) :=
  (c5_grammar_acceptance (pystr "mh02bh1234") (by decide)).2 (by decide)

/-- C6: when the corrected string fails the grammar, it is accepted if
and only if it is at least 6 characters long and contains at least one
digit and at least one letter; otherwise the candidate is rejected
entirely (empty result). -/
theorem c6_fallback (t : PyStr) (h4 : 4 ≤ (cleanedOf t).length)
    (hm : plateMatch (applyCorrections (cleanedOf t)) = false) :
    (post_process_text t = applyCorrections (cleanedOf t) ↔
      6 ≤ (applyCorrections (cleanedOf t)).length ∧
      (applyCorrections (cleanedOf t)).any (fun c => pyIsDigit c) = true ∧
      (applyCorrections (cleanedOf t)).any (fun c => pyIsAlpha c) = true) ∧
    (¬(6 ≤ (applyCorrections (cleanedOf t)).length ∧
        (applyCorrections (cleanedOf t)).any (fun c => pyIsDigit c) = true ∧
        (applyCorrections (cleanedOf t)).any (fun c => pyIsAlpha c) = true) →
      post_process_text t = []) := by
  have h0 : t ≠ [] := by
    intro h0
    rw [h0] at h4
    simp [cleanedOf] at h4
  have hu : (applyCorrections (cleanedOf t)).length = (cleanedOf t).length :=
    applyCorrections_length _
  rw [post_process_text_eq, if_neg h0, if_neg (by omega), if_neg (by simp [hm])]
  by_cases hf : fallbackOk (applyCorrections (cleanedOf t)) = true
  · rw [if_pos hf]
    unfold fallbackOk at hf
    simp only [Bool.and_eq_true, decide_eq_true_eq] at hf
    obtain ⟨⟨h6, hdg⟩, hal⟩ := hf
    exact ⟨⟨fun _ => ⟨h6, hdg, hal⟩, fun _ => rfl⟩, fun hcon => absurd ⟨h6, hdg, hal⟩ hcon⟩
  · rw [if_neg hf]
    have hcon : ¬(6 ≤ (applyCorrections (cleanedOf t)).length ∧
        (applyCorrections (cleanedOf t)).any (fun c => pyIsDigit c) = true ∧
        (applyCorrections (cleanedOf t)).any (fun c => pyIsAlpha c) = true) := by
      rintro ⟨h6, hdg, hal⟩
      apply hf
      unfold fallbackOk
      simp only [Bool.and_eq_true, decide_eq_true_eq]
      exact ⟨⟨h6, hdg⟩, hal⟩
    have hne : applyCorrections (cleanedOf t) ≠ [] := by
      intro hnil
      rw [hnil] at hu
      simp at hu
      omega
    exact ⟨⟨fun heq => absurd heq.symm hne, fun hcon2 => absurd hcon2 hcon⟩, fun _ => rfl⟩

/-- C6 witness: a concrete 7-character corrected string that fails the
grammar but has letters and digits is accepted by the fallback. -/
theorem c6_fallback_witness :
    post_process_text (pystr "ABCDEF1") = applyCorrections (cleanedOf (pystr "ABCDEF1")) :=
  (c6_fallback (pystr "ABCDEF1") (by decide) (by decide)).1.mpr
    ⟨by decide, by decide, by decide⟩

/-- C7: among the accepted candidates, `normalize` returns the one with
the highest confidence, ties broken in favour of the first-seen
candidate (everything before the winner in the accepted list is
strictly smaller, everything after it no larger); with no accepted
candidate it returns the empty result. -/
theorem c7_selection (cands : List (PyStr × ℚ)) :
    (accepted cands = [] → normalize cands = ([], 0)) ∧
    (accepted cands ≠ [] →
      ∃ pre post, accepted cands = pre ++ normalize cands :: post ∧
        (∀ y ∈ pre, y.2 < (normalize cands).2) ∧
        (∀ y ∈ post, y.2 ≤ (normalize cands).2)) := by
  constructor
  · intro h
    unfold normalize
    by_cases h0 : cands = []
    · simp [h0]
    · rw [if_neg h0, h]
      rfl
  · intro h
    have h0 : cands ≠ [] := by
      intro h0
      apply h
      rw [h0]
      rfl
    cases hsd : sortDesc (accepted cands) with
    | nil => exact absurd hsd (sortDesc_ne_nil (accepted cands) h)
    | cons best rest =>
      have hnorm : normalize cands = best := by
        unfold normalize
        rw [if_neg h0, hsd]
      rw [hnorm]
      exact sortDesc_head_spec (accepted cands) best rest hsd

/-- C7 witness: the spec's own example — the short high-confidence
candidate is rejected, so the grammar-valid lower-confidence one wins. -/
theorem c7_selection_witness :
    ∃ pre post,
      accepted [(pystr "AB", (99 : ℚ)/100), (pystr "KA05MN1234", (1 : ℚ)/2)] =
        pre ++ normalize [(pystr "AB", (99 : ℚ)/100), (pystr "KA05MN1234", (1 : ℚ)/2)] :: post ∧
      (∀ y ∈ pre,
        y.2 < (normalize [(pystr "AB", (99 : ℚ)/100), (pystr "KA05MN1234", (1 : ℚ)/2)]).2) ∧
      (∀ y ∈ post,
        y.2 ≤ (normalize [(pystr "AB", (99 : ℚ)/100), (pystr "KA05MN1234", (1 : ℚ)/2)]).2) :=
  (c7_selection [(pystr "AB", (99 : ℚ)/100), (pystr "KA05MN1234", (1 : ℚ)/2)]).2 (by
    have h1 : post_process_text [65, 66] = [] := by decide
    have h2 : post_process_text [75, 65, 48, 53, 77, 78, 49, 50, 51, 52]
        = [75, 65, 48, 53, 77, 78, 49, 50, 51, 52] := by decide
    simp [accepted, pystr, List.filterMap_cons, h1, h2])

/-- C8: the single candidate `("MHO2BH1234", conf)` normalizes to
`("MH02BH1234", conf)` — the letter `O` at position 2 (a digit zone) is
remapped to the digit `0`, and the winning candidate's confidence is
copied through unchanged for every confidence value, in particular for
0.8. -/
theorem c8_letter_to_digit_example :
    normalize [(pystr "MHO2BH1234", (8 : ℚ)/10)] = (pystr "MH02BH1234", (8 : ℚ)/10) ∧
    ∀ q : ℚ, normalize [(pystr "MHO2BH1234", q)] = (pystr "MH02BH1234", q) := by
  have huniv : ∀ q : ℚ, normalize [(pystr "MHO2BH1234", q)] = (pystr "MH02BH1234", q) := by
    intro q
    have h : post_process_text [77, 72, 79, 50, 66, 72, 49, 50, 51, 52]
        = [77, 72, 48, 50, 66, 72, 49, 50, 51, 52] := by decide
    simp [normalize, accepted, pystr, h, sortDesc, insertDesc, List.filterMap_cons]
  exact ⟨huniv _, huniv⟩

/-- C9: `normalize` is idempotent — re-feeding the result of a
single-candidate call (with its own confidence) reproduces it; every
output text is a fixed point of cleanup plus correction plus
validation. -/
theorem c9_idempotent (p : PyStr × ℚ) :
    normalize [normalize [p]] = normalize [p] := by
  obtain ⟨t, q⟩ := p
  by_cases h : post_process_text t = []
  · have h1 : normalize [(t, q)] = ([], 0) := by
      simp [normalize, accepted, h, sortDesc, List.filterMap_cons]
    rw [h1]
    have h2 : post_process_text [] = [] := rfl
    simp [normalize, accepted, h2, sortDesc, List.filterMap_cons]
  · have h1 : normalize [(t, q)] = (post_process_text t, q) := by
      simp [normalize, accepted, h, sortDesc, insertDesc, List.filterMap_cons]
    rw [h1]
    have h2 := post_process_text_fixed t h
    simp [normalize, accepted, h2, h, sortDesc, insertDesc, List.filterMap_cons]

/-- C10: in the series-code zone (positions 4-5) a digit is remapped
only when the cleaned string is strictly longer than 8 characters; on
strings of length at most 8 the characters at positions 4 and 5 pass
through the correction step unchanged. -/
theorem c10_series_zone_length_gate (t : PyStr) (i : Nat) (h : i < t.length)
    (hz : 4 ≤ i ∧ i < 6) :
    (t.length ≤ 8 → (applyCorrections t).getD i 0 = t.getD i 0) ∧
    (8 < t.length → pyIsDigit (t.getD i 0) = true →
      (applyCorrections t).getD i 0 = digit_to_letter (t.getD i 0)) := by
  rw [applyCorrections_getD t i h]
  unfold correctChar
  rw [if_neg (by omega), if_neg (by omega), if_pos hz.2]
  constructor
  · intro h8
    rw [if_neg]
    simp only [Bool.and_eq_true, decide_eq_true_eq, not_and]
    intro _
    omega
  · intro h8 hd
    rw [if_pos (by simp only [Bool.and_eq_true, decide_eq_true_eq]; exact ⟨hd, h8⟩)]

/-- C10 witness: in a length-8 string the digit at position 4 is left
unchanged. -/
theorem c10_series_zone_length_gate_witness :
    (applyCorrections (pystr "AB123456")).getD 4 0 = (pystr "AB123456").getD 4 0 :=
  (c10_series_zone_length_gate (pystr "AB123456") 4 (by decide) (by decide)).1 (by decide)


end ANPR
